import Mathlib

/-!
Verification development for the matrix-analysis routines of the
Parcellotron repository (`src/model/matrix_transformations.py`).

The four functions — `matrix_log2`, `matrix_zscore`, `rotate_components`
and `fit_power` — are shallowly embedded over exact rationals `ℚ`.
Transcendental primitives of the numeric library that have no computable
exact counterpart (`np.log2`, `np.std`'s square root, `np.linalg.svd`,
`scipy.optimize.curve_fit`, the real power `x ** e`) are passed in as
explicit function parameters (oracles); theorems constrain them exactly by
the algebraic properties the library guarantees (orthogonality of SVD
factors, the square root squaring back to its argument, and so on).
Stateful behaviour (the in-place repair of degenerate columns inside
`matrix_zscore`, the printed report, exception propagation out of
`curve_fit`) is made explicit in the return types: the embedded
`matrix_zscore` returns the z-scored matrix together with the post-call
state of its input argument and an optional report count, and the embedded
`fit_power` returns in `Except`.
-/

namespace Parcellotron

/-- Matrices of the embedding: 2-D arrays of exact rationals. -/
abbrev Mat (m n : ℕ) := Matrix (Fin m) (Fin n) ℚ

/-! ### `matrix_log2`

Source: `matrix_log2 = np.log2(matrix + 1); return matrix_log2`.
`np.log2` is modelled by the uninterpreted parameter `log2fn`; the call
allocates a fresh array, so the post-call state of the input is the input
itself.  The result pair is (returned matrix, input array after the call). -/

def matrix_log2 (log2fn : ℚ → ℚ) (M : Mat m n) : Mat m n × Mat m n :=
  (Matrix.of fun i j => log2fn (M i j + 1), M)

/-! ### `matrix_zscore`

Source lines 27–66.  The code computes
`ind_zerostd = np.where(np.sum(matrix, axis=0) == 0)`, and repairs those
columns with `np.random.randn` draws only when
`np.squeeze(ind_zerostd).any()` holds.  For a one-element index array,
`np.squeeze` yields a scalar, and `.any()` on the scalar `0` is `False`:
the guard therefore holds exactly when some index in the zero-sum set is a
nonzero number.  The random draws are modelled by the parameter `rnd`
(one value per row per column), and the square root inside
`scipy.stats.zscore`'s population standard deviation by the parameter
`sq` applied to the population variance.  The result triple is
(returned z-scored matrix, input array after the call, printed report of
the count of affected columns, when any). -/

/-- Set of column indices whose column-sum equals zero
(`np.where(np.sum(matrix, axis=0) == 0)`). -/
def zeroSumCols (A : Mat m n) : Finset (Fin n) :=
  Finset.univ.filter fun j => ∑ i, A i j = 0

/-- The repair guard `np.squeeze(ind_zerostd).any()`: some zero-sum column
index is a nonzero number (index `0` alone is falsy after `squeeze`). -/
abbrev repairGuard (A : Mat m n) : Prop :=
  ∃ j ∈ zeroSumCols A, (j : ℕ) ≠ 0

/-- Population (ddof = 0) column mean, `np.mean(A[:, j])`. -/
def popMean (A : Mat m n) (j : Fin n) : ℚ :=
  (∑ i, A i j) / (m : ℚ)

/-- Population (ddof = 0) column variance; `scipy.stats.zscore` divides by
its square root. -/
def popVar (A : Mat m n) (j : Fin n) : ℚ :=
  (∑ i, (A i j - popMean A j) ^ 2) / (m : ℚ)

/-- `scipy.stats.zscore(A, axis=0)` (population convention, ddof = 0):
subtract the column mean and divide by the column standard deviation
`sq (popVar A j)`, where `sq` models the real square root. -/
def st_zscore (sq : ℚ → ℚ) (A : Mat m n) : Mat m n :=
  Matrix.of fun i j => (A i j - popMean A j) / sq (popVar A j)

/-- The embedded `matrix_zscore`.  Components of the result:
`.1` the returned z-scored matrix, `.2.1` the state of the caller's
matrix after the call (mutated in place by the repair when the guard
holds), `.2.2` the printed count of affected columns (`none` when nothing
is printed). -/
def matrix_zscore (sq : ℚ → ℚ) (rnd : Fin m → Fin n → ℚ) (A : Mat m n) :
    Mat m n × Mat m n × Option ℕ :=
  let A' : Mat m n :=
    if repairGuard A then
      Matrix.of fun i j => if j ∈ zeroSumCols A then rnd i j else A i j
    else A
  let report : Option ℕ :=
    if repairGuard A then some (zeroSumCols A).card else none
  (st_zscore sq A', A', report)

/-- Concrete 2×2 input whose only zero-sum column is column 0. -/
def zeroCol0Mat : Mat 2 2 := Matrix.of ![![0, 1], ![0, 2]]

/-- C1: the spec says the repair fires for every non-empty set of zero-sum
columns, including the set `{0}`.  Evaluating the embedded code at the 2×2
matrix `[[0,1],[0,2]]` (only zero-sum column: index 0) shows the zero-sum
set is the non-empty `{0}`, yet the guard `np.squeeze(·).any()` is false,
no report is printed and the caller's matrix is left unrepaired: the code
contradicts the documented behaviour. -/
theorem C1_column0_guard_eval :
    zeroSumCols zeroCol0Mat = {0} ∧
    (zeroSumCols zeroCol0Mat).Nonempty ∧
    ¬ repairGuard zeroCol0Mat ∧
    (matrix_zscore (fun x => x) (fun _ _ => (5 : ℚ)) zeroCol0Mat).2.1 = zeroCol0Mat ∧
    (matrix_zscore (fun x => x) (fun _ _ => (5 : ℚ)) zeroCol0Mat).2.2 = none := by
  have hzs : zeroSumCols zeroCol0Mat = {0} := by
    ext j
    fin_cases j <;> norm_num [zeroSumCols, zeroCol0Mat, Fin.sum_univ_two]
  have hng : ¬ repairGuard zeroCol0Mat := by
    simp only [repairGuard, hzs]
    simp
  refine ⟨hzs, hzs ▸ ⟨0, Finset.mem_singleton_self 0⟩, hng, ?_, ?_⟩ <;>
    · simp [matrix_zscore, hng]

/-- C10: `matrix_log2` computes `log2(M + 1)` elementwise (with `np.log2`
modelled by the parameter `f`), sends the all-zero matrix to the all-zero
matrix (using `log2 1 = 0`, the hypothesis on `f`), and is pure: the
post-call state of the input argument is the input itself. -/
theorem C10_log2_pointwise (f : ℚ → ℚ) (M : Mat m n) (hf : f 1 = 0) :
    (∀ i j, (matrix_log2 f M).1 i j = f (M i j + 1)) ∧
    (matrix_log2 f M).2 = M ∧
    (matrix_log2 f (0 : Mat m n)).1 = 0 := by
  refine ⟨fun i j => rfl, rfl, ?_⟩
  ext i j
  simp [matrix_log2, hf]

/-- Concrete input for the C10 witness. -/
def logWMat : Mat 2 2 := Matrix.of ![![3, 4], ![5, 6]]

theorem C10_log2_pointwise_witness :
    ((fun x : ℚ => x - 1) 1 = 0) ∧
    ((∀ i j, (matrix_log2 (fun x : ℚ => x - 1) logWMat).1 i j =
        (fun x : ℚ => x - 1) (logWMat i j + 1)) ∧
     (matrix_log2 (fun x : ℚ => x - 1) logWMat).2 = logWMat ∧
     (matrix_log2 (fun x : ℚ => x - 1) (0 : Mat 2 2)).1 = 0) :=
  ⟨by norm_num, C10_log2_pointwise (fun x : ℚ => x - 1) logWMat (by norm_num)⟩

/-- C5: on a matrix with no zero-sum column (so the repair branch is not
taken) and no zero-variance column, `matrix_zscore` returns the matrix
whose entries are `(entry - column mean) / column population standard
deviation`, and every output column has population mean `0` and population
variance `1` (equivalently, population standard deviation `1`).  `sq`
models the real square root inside `scipy.stats.zscore`, constrained at
the values where it is used. -/
theorem C5_zscore_mean_var (sq : ℚ → ℚ) (rnd : Fin m → Fin n → ℚ) (A : Mat m n)
    (h0 : ∀ j, (∑ i, A i j) ≠ 0)
    (hsq : ∀ j, 0 ≤ sq (popVar A j) ∧ sq (popVar A j) ^ 2 = popVar A j)
    (hvar : ∀ j, popVar A j ≠ 0) :
    (∀ i j, (matrix_zscore sq rnd A).1 i j =
        (A i j - popMean A j) / sq (popVar A j)) ∧
    (∀ j, popMean (matrix_zscore sq rnd A).1 j = 0) ∧
    (∀ j, popVar (matrix_zscore sq rnd A).1 j = 1) := by
  have hng : ¬ repairGuard A := by
    rintro ⟨j, hj, -⟩
    exact h0 j (by simpa [zeroSumCols] using hj)
  have hz : (matrix_zscore sq rnd A).1 = st_zscore sq A := by
    simp [matrix_zscore, hng]
  have hm : ∀ _j : Fin n, (m : ℚ) ≠ 0 := by
    intro j hm0
    have hm1 : m = 0 := by exact_mod_cast hm0
    subst hm1
    exact h0 j (by simp)
  have hsum : ∀ j, ∑ i, (A i j - popMean A j) = 0 := by
    intro j
    rw [Finset.sum_sub_distrib, Finset.sum_const, Finset.card_univ, Fintype.card_fin,
      nsmul_eq_mul, popMean, mul_div_cancel₀ _ (hm j), sub_self]
  have hmean : ∀ j, popMean (st_zscore sq A) j = 0 := by
    intro j
    rw [popMean]
    have : ∑ i, st_zscore sq A i j = 0 := by
      simp only [st_zscore, Matrix.of_apply]
      rw [← Finset.sum_div, hsum j, zero_div]
    rw [this, zero_div]
  refine ⟨fun i j => by rw [hz]; rfl, fun j => by rw [hz]; exact hmean j, fun j => ?_⟩
  rw [hz]
  have hσ2 := (hsq j).2
  have hv := hvar j
  have hS : (∑ i, (A i j - popMean A j) ^ 2) = popVar A j * m := by
    rw [popVar, div_mul_cancel₀ _ (hm j)]
  have hterm : ∀ i : Fin m, (st_zscore sq A i j - popMean (st_zscore sq A) j) ^ 2
      = (A i j - popMean A j) ^ 2 / sq (popVar A j) ^ 2 := by
    intro i
    rw [hmean j, sub_zero]
    show ((A i j - popMean A j) / sq (popVar A j)) ^ 2 = _
    rw [div_pow]
  rw [popVar, Finset.sum_congr rfl fun i _ => hterm i, ← Finset.sum_div, hσ2, hS]
  field_simp
  exact div_self (hm j)

/-- Concrete input for the C5 witness: no zero-sum column, both columns
have population variance 1. -/
def w5Mat : Mat 2 2 := Matrix.of ![![0, 1], ![2, 3]]

theorem C5_zscore_mean_var_witness :
    (∀ i j, (matrix_zscore (fun x => x) (fun _ _ => (0 : ℚ)) w5Mat).1 i j =
        (w5Mat i j - popMean w5Mat j) / (fun x : ℚ => x) (popVar w5Mat j)) ∧
    (∀ j, popMean (matrix_zscore (fun x => x) (fun _ _ => (0 : ℚ)) w5Mat).1 j = 0) ∧
    (∀ j, popVar (matrix_zscore (fun x => x) (fun _ _ => (0 : ℚ)) w5Mat).1 j = 1) := by
  have hpv : ∀ j : Fin 2, popVar w5Mat j = 1 := by
    intro j
    fin_cases j <;> norm_num [popVar, popMean, w5Mat, Fin.sum_univ_two]
  exact C5_zscore_mean_var (fun x => x) (fun _ _ => (0 : ℚ)) w5Mat
    (by intro j; fin_cases j <;> norm_num [w5Mat, Fin.sum_univ_two])
    (by intro j; rw [hpv j]; norm_num)
    (by intro j; rw [hpv j]; norm_num)

/-- C6: the embedded `matrix_zscore` mutates the caller's matrix exactly
when the repair fires: when the guard holds, after the call every zero-sum
column holds the injected random draws and every other column is
untouched; when the guard fails, the caller's matrix is entirely
unchanged. -/
theorem C6_zscore_mutation (sq : ℚ → ℚ) (rnd : Fin m → Fin n → ℚ) (A : Mat m n) :
    (repairGuard A →
      (∀ i, ∀ j ∈ zeroSumCols A, (matrix_zscore sq rnd A).2.1 i j = rnd i j) ∧
      (∀ i j, j ∉ zeroSumCols A → (matrix_zscore sq rnd A).2.1 i j = A i j)) ∧
    (¬ repairGuard A → (matrix_zscore sq rnd A).2.1 = A) := by
  constructor
  · intro hg
    constructor
    · intro i j hj
      simp [matrix_zscore, hg, hj]
    · intro i j hj
      simp [matrix_zscore, hg, hj]
  · intro hg
    simp [matrix_zscore, hg]

/-- Concrete input for the C6 witness: column 1 is all-zero, so the repair
fires and replaces it. -/
def mutWMat : Mat 2 2 := Matrix.of ![![1, 0], ![2, 0]]

/-- Concrete input for the C6 witness: no zero-sum column, no repair. -/
def pureWMat : Mat 2 2 := Matrix.of ![![1, 1], ![2, 2]]

theorem C6_zscore_mutation_witness :
    (matrix_zscore (fun x => x) (fun _ _ => (7 : ℚ)) mutWMat).2.1 0 1 = 7 ∧
    (matrix_zscore (fun x => x) (fun _ _ => (7 : ℚ)) pureWMat).2.1 = pureWMat := by
  have hmem : (1 : Fin 2) ∈ zeroSumCols mutWMat := by
    simp [zeroSumCols, mutWMat, Fin.sum_univ_two]
  have hg : repairGuard mutWMat := ⟨1, hmem, by norm_num⟩
  have hng : ¬ repairGuard pureWMat := by
    rintro ⟨j, hj, -⟩
    simp only [zeroSumCols, Finset.mem_filter] at hj
    fin_cases j <;> norm_num [pureWMat, Fin.sum_univ_two] at hj
  exact ⟨((C6_zscore_mutation (fun x => x) (fun _ _ => (7 : ℚ)) mutWMat).1 hg).1 0 1 hmem,
    (C6_zscore_mutation (fun x => x) (fun _ _ => (7 : ℚ)) pureWMat).2 hng⟩

/-! ### `rotate_components`

Source lines 68–97.  `np.linalg.svd` has no computable exact counterpart,
so it is modelled by an oracle: three functions giving the `u`, `s`, `vh`
of each matrix.  Theorems constrain the oracle exactly by what the library
guarantees (orthogonality of `u` and `vh`; where needed, the factorization
`M = u · diag(s) · vh` with nonnegative `s`).  The loop state is the pair
`(r, d)`; the embedded loop also returns the number of iterations
executed, so that the stopping behaviour can be stated. -/

/-- Oracle modelling `np.linalg.svd` on k×k matrices. -/
structure SVDOracle (k : ℕ) where
  u : Mat k k → Mat k k
  s : Mat k k → Fin k → ℚ
  vh : Mat k k → Mat k k

/-- Elementwise cube, `np.asarray(Lambda)**3`. -/
def cubeM (A : Mat p k) : Mat p k := Matrix.of fun i j => A i j ^ 3

/-- The matrix handed to the SVD in each iteration:
`phi.T · (Lambda³ − (gamma/p) · Lambda · diag(diag(Lambda.T·Lambda)))`
with `Lambda = phi · r`. -/
def targetMat (gamma : ℚ) (phi : Mat p k) (r : Mat k k) : Mat k k :=
  phi.transpose *
    (cubeM (phi * r) -
      (gamma / (p : ℚ)) •
        ((phi * r) * Matrix.diagonal fun i => ((phi * r).transpose * (phi * r)) i i))

/-- One loop body: `u,s,vh = svd(target); r = u·vh; d = sum(s)`.  Returns
the new `(r, d)`. -/
def rotStep (O : SVDOracle k) (gamma : ℚ) (phi : Mat p k) (r : Mat k k) :
    Mat k k × ℚ :=
  (O.u (targetMat gamma phi r) * O.vh (targetMat gamma phi r),
   ∑ i, O.s (targetMat gamma phi r) i)

/-- The stopping test `d_old != 0 and d / d_old < 1 + tol`. -/
abbrev breakCond (tol d_old d : ℚ) : Prop := d_old ≠ 0 ∧ d / d_old < 1 + tol

/-- The `for i in np.arange(q)` loop with its early `break`.  Input: the
remaining iteration budget and the current state `(r, d)`; output: the
final state and the number of iterations actually executed. -/
def rotLoopFull (O : SVDOracle k) (gamma tol : ℚ) (phi : Mat p k) :
    ℕ → Mat k k × ℚ → (Mat k k × ℚ) × ℕ
  | 0, st => (st, 0)
  | fuel + 1, st =>
    let st' := rotStep O gamma phi st.1
    if breakCond tol st.2 st'.2 then (st', 1)
    else
      let res := rotLoopFull O gamma tol phi fuel st'
      (res.1, res.2 + 1)

/-- The embedded `rotate_components`: run the loop from `r = eye(k)`,
`d = 0`, and return `phi · r`.  The source defaults are `gamma = 1.0`,
`q = 50`, `tol = 1e-6`. -/
def rotate_components (O : SVDOracle k) (phi : Mat p k) (gamma : ℚ) (q : ℕ)
    (tol : ℚ) : Mat p k :=
  phi * (rotLoopFull O gamma tol phi q (1, 0)).1.1

/-- Squared Frobenius norm; two matrices have the same Frobenius norm iff
their `frobSq` agree, since the norm is the square root of this
nonnegative quantity. -/
def frobSq (A : Mat p k) : ℚ := ∑ i, ∑ j, A i j ^ 2

lemma frobSq_eq_trace (A : Mat p k) :
    frobSq A = Matrix.trace (A * A.transpose) := by
  simp [frobSq, Matrix.trace, Matrix.diag, Matrix.mul_apply,
    Matrix.transpose_apply, sq]

lemma frobSq_mul_orth (A : Mat p k) (r : Mat k k)
    (hr : r * r.transpose = 1) : frobSq (A * r) = frobSq A := by
  rw [frobSq_eq_trace, frobSq_eq_trace, Matrix.transpose_mul, Matrix.mul_assoc,
    ← Matrix.mul_assoc r, hr, Matrix.one_mul]

lemma rotStep_fst_orth (O : SVDOracle k) (gamma : ℚ) (phi : Mat p k)
    (hu : ∀ M, O.u M * (O.u M).transpose = 1)
    (hv : ∀ M, O.vh M * (O.vh M).transpose = 1) (r : Mat k k) :
    (rotStep O gamma phi r).1 * ((rotStep O gamma phi r).1).transpose = 1 := by
  simp only [rotStep]
  rw [Matrix.transpose_mul, Matrix.mul_assoc,
    ← Matrix.mul_assoc (O.vh (targetMat gamma phi r)), hv, Matrix.one_mul, hu]

lemma rotLoopFull_succ_break (O : SVDOracle k) (gamma tol : ℚ) (phi : Mat p k)
    (fuel : ℕ) (st : Mat k k × ℚ)
    (hb : breakCond tol st.2 (rotStep O gamma phi st.1).2) :
    rotLoopFull O gamma tol phi (fuel + 1) st = (rotStep O gamma phi st.1, 1) := by
  simp only [rotLoopFull, if_pos hb]

lemma rotLoopFull_succ_go (O : SVDOracle k) (gamma tol : ℚ) (phi : Mat p k)
    (fuel : ℕ) (st : Mat k k × ℚ)
    (hb : ¬ breakCond tol st.2 (rotStep O gamma phi st.1).2) :
    rotLoopFull O gamma tol phi (fuel + 1) st =
      ((rotLoopFull O gamma tol phi fuel (rotStep O gamma phi st.1)).1,
       (rotLoopFull O gamma tol phi fuel (rotStep O gamma phi st.1)).2 + 1) := by
  simp only [rotLoopFull, if_neg hb]

lemma rotLoopFull_fst_orth (O : SVDOracle k) (gamma tol : ℚ) (phi : Mat p k)
    (hu : ∀ M, O.u M * (O.u M).transpose = 1)
    (hv : ∀ M, O.vh M * (O.vh M).transpose = 1) :
    ∀ (fuel : ℕ) (st : Mat k k × ℚ), st.1 * (st.1).transpose = 1 →
      (rotLoopFull O gamma tol phi fuel st).1.1 *
        ((rotLoopFull O gamma tol phi fuel st).1.1).transpose = 1 := by
  intro fuel
  induction fuel with
  | zero => intro st h; simpa [rotLoopFull] using h
  | succ f ih =>
    intro st h
    by_cases hb : breakCond tol st.2 (rotStep O gamma phi st.1).2
    · simp only [rotLoopFull, if_pos hb]
      exact rotStep_fst_orth O gamma phi hu hv st.1
    · simp only [rotLoopFull, if_neg hb]
      exact ih _ (rotStep_fst_orth O gamma phi hu hv st.1)

lemma rotLoopFull_count_pos (O : SVDOracle k) (gamma tol : ℚ) (phi : Mat p k)
    (fuel : ℕ) (st : Mat k k × ℚ) (hf : 1 ≤ fuel) :
    1 ≤ (rotLoopFull O gamma tol phi fuel st).2 := by
  obtain ⟨f, rfl⟩ : ∃ f, fuel = f + 1 := ⟨fuel - 1, by omega⟩
  by_cases hb : breakCond tol st.2 (rotStep O gamma phi st.1).2
  · simp [rotLoopFull, if_pos hb]
  · simp [rotLoopFull, if_neg hb]

/-- C2: the loop exits right after an iteration exactly when that
iteration's `d_old` is nonzero and `d / d_old < 1 + tol`; whenever
`d_old > 0` and `d ≤ d_old` (any decrease or stagnation) the test fires;
the test can never fire on the first iteration, where `d_old = 0`, so
with a budget of at least two the loop always runs at least two
iterations. -/
theorem C2_stopping_criterion (O : SVDOracle k) (gamma tol : ℚ) (phi : Mat p k) :
    (∀ (st : Mat k k × ℚ) (fuel : ℕ), 1 ≤ fuel →
      ((rotLoopFull O gamma tol phi (fuel + 1) st).2 = 1 ↔
        breakCond tol st.2 (rotStep O gamma phi st.1).2)) ∧
    (∀ d_old d : ℚ, 0 < tol → 0 < d_old → d ≤ d_old → breakCond tol d_old d) ∧
    (∀ d : ℚ, ¬ breakCond tol 0 d) ∧
    (∀ q : ℕ, 2 ≤ q → 2 ≤ (rotLoopFull O gamma tol phi q (1, 0)).2) := by
  refine ⟨?_, ?_, ?_, ?_⟩
  · intro st fuel hf
    by_cases hb : breakCond tol st.2 (rotStep O gamma phi st.1).2
    · rw [rotLoopFull_succ_break O gamma tol phi fuel st hb]
      simpa using hb
    · have hge := rotLoopFull_count_pos O gamma tol phi fuel
        (rotStep O gamma phi st.1) hf
      rw [rotLoopFull_succ_go O gamma tol phi fuel st hb]
      constructor
      · intro h1
        exact absurd h1 (by omega)
      · intro h1
        exact absurd h1 hb
  · intro d_old d ht h1 h2
    refine ⟨ne_of_gt h1, ?_⟩
    have hle : d / d_old ≤ 1 := (div_le_one h1).mpr h2
    linarith
  · rintro d ⟨h, -⟩
    exact h rfl
  · intro q hq
    obtain ⟨q', rfl⟩ : ∃ q', q = q' + 1 := ⟨q - 1, by omega⟩
    have hnb : ¬ breakCond tol (((1 : Mat k k), (0 : ℚ)) : Mat k k × ℚ).2
        (rotStep O gamma phi (((1 : Mat k k), (0 : ℚ)) : Mat k k × ℚ).1).2 := by
      rintro ⟨h, -⟩
      exact h rfl
    have hge := rotLoopFull_count_pos O gamma tol phi q'
      (rotStep O gamma phi (((1 : Mat k k), (0 : ℚ)) : Mat k k × ℚ).1) (by omega)
    rw [rotLoopFull_succ_go O gamma tol phi q' ((1 : Mat k k), (0 : ℚ)) hnb]
    omega

/-- Oracle with identity factors and constant singular values, used to
instantiate theorems at concrete inputs. -/
def constOracle (k : ℕ) (c : ℚ) : SVDOracle k :=
  ⟨fun _ => 1, fun _ _ => c, fun _ => 1⟩

theorem C2_stopping_criterion_witness :
    (∀ (st : Mat 2 2 × ℚ) (fuel : ℕ), 1 ≤ fuel →
      ((rotLoopFull (constOracle 2 0) 1 (1/1000000) (1 : Mat 2 2) (fuel + 1) st).2 = 1 ↔
        breakCond (1/1000000) st.2 (rotStep (constOracle 2 0) 1 (1 : Mat 2 2) st.1).2)) ∧
    (∀ d_old d : ℚ, 0 < (1/1000000 : ℚ) → 0 < d_old → d ≤ d_old →
      breakCond (1/1000000) d_old d) ∧
    (∀ d : ℚ, ¬ breakCond (1/1000000) 0 d) ∧
    (∀ q : ℕ, 2 ≤ q →
      2 ≤ (rotLoopFull (constOracle 2 0) 1 (1/1000000) (1 : Mat 2 2) q (1, 0)).2) :=
  C2_stopping_criterion (constOracle 2 0) 1 (1/1000000) (1 : Mat 2 2)

/-- C3: with SVD factors orthogonal (as `np.linalg.svd` guarantees), the
rotation matrix `r = u·vh` satisfies `r · rᵀ = 1` after every update and
after the whole loop, and the returned rotated loadings `phi · r` have the
same squared Frobenius norm as `phi` (hence the same Frobenius norm), for
every `p×k` input `phi`. -/
theorem C3_rotation_orthogonal (O : SVDOracle k) (gamma tol : ℚ) (phi : Mat p k)
    (q : ℕ)
    (hu : ∀ M, O.u M * (O.u M).transpose = 1)
    (hv : ∀ M, O.vh M * (O.vh M).transpose = 1) :
    (∀ r : Mat k k,
      (rotStep O gamma phi r).1 * ((rotStep O gamma phi r).1).transpose = 1) ∧
    (rotLoopFull O gamma tol phi q (1, 0)).1.1 *
      ((rotLoopFull O gamma tol phi q (1, 0)).1.1).transpose = 1 ∧
    frobSq (rotate_components O phi gamma q tol) = frobSq phi := by
  have hloop := rotLoopFull_fst_orth O gamma tol phi hu hv q
    ((1 : Mat k k), (0 : ℚ)) (by simp)
  exact ⟨rotStep_fst_orth O gamma phi hu hv, hloop, by
    rw [rotate_components]
    exact frobSq_mul_orth phi _ hloop⟩

/-- Concrete loadings matrix for the C3 witness. -/
def w3Mat : Mat 2 2 := Matrix.of ![![1, 2], ![3, 4]]

theorem C3_rotation_orthogonal_witness :
    (∀ r : Mat 2 2,
      (rotStep (constOracle 2 0) 1 w3Mat r).1 *
        ((rotStep (constOracle 2 0) 1 w3Mat r).1).transpose = 1) ∧
    (rotLoopFull (constOracle 2 0) 1 (1/1000000) w3Mat 3 (1, 0)).1.1 *
      ((rotLoopFull (constOracle 2 0) 1 (1/1000000) w3Mat 3 (1, 0)).1.1).transpose = 1 ∧
    frobSq (rotate_components (constOracle 2 0) w3Mat 1 3 (1/1000000)) = frobSq w3Mat :=
  C3_rotation_orthogonal (constOracle 2 0) 1 (1/1000000) w3Mat 3
    (fun M => by simp [constOracle]) (fun M => by simp [constOracle])

/-- The 4×3 identity-loadings matrix of the spec scenario: ones on the
diagonal, zeros elsewhere. -/
def idLoadings : Mat 4 3 :=
  Matrix.of ![![1, 0, 0], ![0, 1, 0], ![0, 0, 1], ![0, 0, 0]]

/-- The only matrix the scenario ever hands to the SVD: `(3/4) · I₃`. -/
def scenTarget : Mat 3 3 := (3/4 : ℚ) • 1

lemma cubeM_idLoadings : cubeM idLoadings = idLoadings := by
  ext i j
  fin_cases i <;> fin_cases j <;> norm_num [cubeM, idLoadings]

lemma idLoadings_gram : idLoadings.transpose * idLoadings = 1 := by
  ext i j
  fin_cases i <;> fin_cases j <;>
    norm_num [Matrix.mul_apply, Matrix.transpose_apply, idLoadings,
      Fin.sum_univ_four, Matrix.one_apply, Matrix.vecHead, Matrix.vecTail,
      Fin.ext_iff]

lemma targetMat_idLoadings : targetMat 1 idLoadings (1 : Mat 3 3) = scenTarget := by
  rw [targetMat, Matrix.mul_one, cubeM_idLoadings]
  have hdiag : (Matrix.diagonal fun i =>
      (idLoadings.transpose * idLoadings) i i) = (1 : Mat 3 3) := by
    rw [show (fun i => (idLoadings.transpose * idLoadings) i i) = fun _ => (1 : ℚ)
      from funext fun i => by rw [idLoadings_gram, Matrix.one_apply_eq]]
    exact Matrix.diagonal_one
  rw [hdiag, Matrix.mul_one]
  have hsub : idLoadings - ((1 : ℚ) / ((4 : ℕ) : ℚ)) • idLoadings =
      ((3 : ℚ)/4) • idLoadings := by
    ext i j
    simp only [Matrix.sub_apply, Matrix.smul_apply, smul_eq_mul]
    push_cast
    ring
  rw [hsub, Matrix.mul_smul, idLoadings_gram, scenTarget]

lemma svd_scenTarget_forced (u vh : Mat 3 3) (s : Fin 3 → ℚ)
    (hu : u * u.transpose = 1) (hv : vh * vh.transpose = 1)
    (hfact : scenTarget = u * Matrix.diagonal s * vh)
    (hs : ∀ i, 0 ≤ s i) :
    u * vh = 1 ∧ (∑ i, s i) = 9/4 := by
  have hu' : u.transpose * u = 1 := Matrix.mul_eq_one_comm.mp hu
  have hv' : vh.transpose * vh = 1 := Matrix.mul_eq_one_comm.mp hv
  have hMtM : scenTarget.transpose * scenTarget = ((9 : ℚ)/16) • 1 := by
    rw [scenTarget, Matrix.transpose_smul, Matrix.transpose_one,
      Matrix.smul_mul, Matrix.mul_smul, Matrix.one_mul, smul_smul]
    norm_num
  have key : ∀ X : Mat 3 3, u.transpose * (u * X) = X := by
    intro X
    rw [← Matrix.mul_assoc, hu', Matrix.one_mul]
  have keyv : ∀ X : Mat 3 3, vh * (vh.transpose * X) = X := by
    intro X
    rw [← Matrix.mul_assoc, hv, Matrix.one_mul]
  have keyv2 : ∀ X : Mat 3 3, X * vh * vh.transpose = X := by
    intro X
    rw [Matrix.mul_assoc, hv, Matrix.mul_one]
  have hexp : scenTarget.transpose * scenTarget =
      vh.transpose * ((Matrix.diagonal fun i => s i * s i) * vh) := by
    rw [hfact, Matrix.transpose_mul, Matrix.transpose_mul,
      Matrix.diagonal_transpose]
    simp only [Matrix.mul_assoc]
    rw [key, ← Matrix.mul_assoc (Matrix.diagonal s), Matrix.diagonal_mul_diagonal]
  have h2 : vh.transpose * ((Matrix.diagonal fun i => s i * s i) * vh) =
      ((9 : ℚ)/16) • 1 := by
    rw [← hexp, hMtM]
  have hD : (Matrix.diagonal fun i => s i * s i) = ((9 : ℚ)/16) • 1 := by
    have h3 := congrArg (fun X => vh * X * vh.transpose) h2
    simp only at h3
    rw [keyv, keyv2, Matrix.mul_smul, Matrix.mul_one, Matrix.smul_mul, hv] at h3
    exact h3
  have hsq : ∀ i : Fin 3, s i * s i = 9/16 := by
    intro i
    have h3 : (Matrix.diagonal fun i => s i * s i) i i =
        (((9 : ℚ)/16) • (1 : Mat 3 3)) i i := by rw [hD]
    simpa [Matrix.diagonal_apply_eq, Matrix.smul_apply, Matrix.one_apply_eq]
      using h3
  have hval : ∀ i : Fin 3, s i = 3/4 := by
    intro i
    have hz : (s i - 3/4) * (s i + 3/4) = 0 := by linear_combination hsq i
    rcases mul_eq_zero.mp hz with h | h
    · linarith
    · have := hs i
      linarith
  have hDconst : Matrix.diagonal s = (3/4 : ℚ) • (1 : Mat 3 3) := by
    ext i j
    by_cases hij : i = j
    · subst hij
      simp [Matrix.diagonal_apply_eq, Matrix.smul_apply, Matrix.one_apply_eq,
        hval i]
    · simp [Matrix.diagonal_apply_ne _ hij, Matrix.smul_apply,
        Matrix.one_apply_ne hij]
  constructor
  · have hfact2 : (3/4 : ℚ) • (1 : Mat 3 3) = (3/4 : ℚ) • (u * vh) := by
      calc (3/4 : ℚ) • (1 : Mat 3 3) = scenTarget := rfl
        _ = u * Matrix.diagonal s * vh := hfact
        _ = (3/4 : ℚ) • (u * vh) := by
            rw [hDconst, Matrix.mul_smul, Matrix.mul_one, Matrix.smul_mul]
    ext i j
    have h4 : ((3/4 : ℚ) • (1 : Mat 3 3)) i j = ((3/4 : ℚ) • (u * vh)) i j := by
      rw [hfact2]
    simp only [Matrix.smul_apply, smul_eq_mul] at h4
    exact (mul_left_cancel₀ (by norm_num : (3 : ℚ)/4 ≠ 0) h4).symm
  · rw [Fin.sum_univ_three, hval 0, hval 1, hval 2]
    norm_num

/-- C7: on the 4×3 identity-loadings matrix with `gamma = 1.0` and the
default `q = 50`, `tol = 1e-6`, every SVD update forces the rotation
matrix to stay the identity (any valid SVD of the scenario's target
`(3/4)·I₃` has `u·vh = I` and singular values `3/4`), the loop exits via
the convergence test after the second iteration, and `rotate_components`
returns `phi` unchanged. -/
theorem C7_identity_loadings (O : SVDOracle 3)
    (hu : O.u scenTarget * (O.u scenTarget).transpose = 1)
    (hv : O.vh scenTarget * (O.vh scenTarget).transpose = 1)
    (hfact : scenTarget =
      O.u scenTarget * Matrix.diagonal (O.s scenTarget) * O.vh scenTarget)
    (hs : ∀ i, 0 ≤ O.s scenTarget i) :
    rotate_components O idLoadings 1 50 (1/1000000) = idLoadings ∧
    (rotLoopFull O 1 (1/1000000) idLoadings 50 (1, 0)).2 = 2 ∧
    (rotStep O 1 idLoadings (1 : Mat 3 3)).1 = 1 := by
  obtain ⟨hr, hd⟩ := svd_scenTarget_forced _ _ _ hu hv hfact hs
  have hstep : rotStep O 1 idLoadings (1 : Mat 3 3) =
      ((1 : Mat 3 3), (9/4 : ℚ)) := by
    rw [rotStep, targetMat_idLoadings, hr, hd]
  have hnb : ¬ breakCond (1/1000000 : ℚ)
      (((1 : Mat 3 3), (0 : ℚ)) : Mat 3 3 × ℚ).2
      (rotStep O 1 idLoadings (((1 : Mat 3 3), (0 : ℚ)) : Mat 3 3 × ℚ).1).2 := by
    rintro ⟨h, -⟩
    exact h rfl
  have hb : breakCond (1/1000000 : ℚ)
      (((1 : Mat 3 3), (9/4 : ℚ)) : Mat 3 3 × ℚ).2
      (rotStep O 1 idLoadings (((1 : Mat 3 3), (9/4 : ℚ)) : Mat 3 3 × ℚ).1).2 := by
    rw [hstep]
    exact ⟨by norm_num, by norm_num⟩
  have e1 : rotLoopFull O 1 (1/1000000) idLoadings 49 ((1 : Mat 3 3), (9/4 : ℚ)) =
      (((1 : Mat 3 3), (9/4 : ℚ)), 1) := by
    rw [show (49 : ℕ) = 48 + 1 from rfl,
      rotLoopFull_succ_break O 1 (1/1000000) idLoadings 48 _ hb, hstep]
  have e0 : rotLoopFull O 1 (1/1000000) idLoadings 50 ((1 : Mat 3 3), (0 : ℚ)) =
      ((((1 : Mat 3 3), (9/4 : ℚ)) : Mat 3 3 × ℚ), 2) := by
    rw [show (50 : ℕ) = 49 + 1 from rfl,
      rotLoopFull_succ_go O 1 (1/1000000) idLoadings 49 _ hnb, hstep, e1]
  refine ⟨?_, ?_, ?_⟩
  · rw [rotate_components, e0, Matrix.mul_one]
  · rw [e0]
  · rw [hstep]

theorem C7_identity_loadings_witness :
    rotate_components (constOracle 3 (3/4)) idLoadings 1 50 (1/1000000) = idLoadings ∧
    (rotLoopFull (constOracle 3 (3/4)) 1 (1/1000000) idLoadings 50 (1, 0)).2 = 2 ∧
    (rotStep (constOracle 3 (3/4)) 1 idLoadings (1 : Mat 3 3)).1 = 1 :=
  C7_identity_loadings (constOracle 3 (3/4))
    (by simp [constOracle])
    (by simp [constOracle])
    (by
      simp only [constOracle, Matrix.one_mul, Matrix.mul_one]
      ext i j
      by_cases hij : i = j
      · subst hij
        simp [scenTarget, Matrix.diagonal_apply_eq, Matrix.smul_apply,
          Matrix.one_apply_eq]
      · simp [scenTarget, Matrix.diagonal_apply_ne _ hij, Matrix.smul_apply,
          Matrix.one_apply_ne hij])
    (by intro i; simp [constOracle]; norm_num)

/-! ### `fit_power`

Source lines 99–142.  `scipy.optimize.curve_fit` is modelled by the
oracle `cfit`: it receives the truncated eigenvalue list (its x grid
`np.arange(len(L))+1` is determined by that list) and either returns the
optimal `(amp, exponent)` pair or raises — `Except.error` — exactly as
the library call does.  The real power `x ** e` inside `powerfunc` is
modelled by the oracle `rpow`.  `np.sqrt` is strictly monotone, so the
set of indices minimizing the true distance `sqrt(x² + y²)` is the set
minimizing `x² + y²`; the embedding compares the squares.  `np.round`
rounds half to even.  One more failure path exists after a successful
fit: `i0 = np.where(d == np.min(d))` holds every index attaining the
minimum, and when there are several, `x0 = x[np.squeeze(i0)]` is a
multi-element array and `np.int(np.round(x0))` raises `TypeError`; the
embedding keeps this path as a distinct error. -/

/-- `powerfunc(x, amp, exponent) = amp * x ** exponent`. -/
def powerfunc (rpow : ℚ → ℚ → ℚ) (amp expo x : ℚ) : ℚ := amp * rpow x expo

/-- The sample grid `np.linspace(1, 50, 1000)`. -/
def linspace1to50 (t : Fin 1000) : ℚ := 1 + 49 * ((t : ℕ) : ℚ) / 999

/-- Squared distance from the origin to the sample point
`(x_t, powerfunc(x_t))`. -/
def distsq (rpow : ℚ → ℚ → ℚ) (amp expo : ℚ) (t : Fin 1000) : ℚ :=
  linspace1to50 t ^ 2 + powerfunc rpow amp expo (linspace1to50 t) ^ 2

/-- First index attaining the minimum of `f`; it names the minimum value
`np.min(d)` (which it attains), and when that value is attained only
once, the unique index held by `np.where(d == np.min(d))`. -/
def argminFin (f : Fin 1000 → ℚ) : Fin 1000 :=
  (List.finRange 1000).foldl (fun best t => if f t < f best then t else best) 0

lemma foldl_min_le (f : Fin 1000 → ℚ) :
    ∀ (l : List (Fin 1000)) (b : Fin 1000),
      f (l.foldl (fun best t => if f t < f best then t else best) b) ≤ f b ∧
      ∀ t ∈ l, f (l.foldl (fun best t => if f t < f best then t else best) b) ≤ f t := by
  intro l
  induction l with
  | nil =>
    intro b
    exact ⟨le_refl _, by simp⟩
  | cons a l ih =>
    intro b
    simp only [List.foldl_cons]
    by_cases h : f a < f b
    · rw [if_pos h]
      refine ⟨le_trans (ih a).1 (le_of_lt h), ?_⟩
      intro t ht
      rcases List.mem_cons.mp ht with rfl | ht
      · exact (ih t).1
      · exact (ih a).2 t ht
    · rw [if_neg h]
      refine ⟨(ih b).1, ?_⟩
      intro t ht
      rcases List.mem_cons.mp ht with rfl | ht
      · exact le_trans (ih b).1 (not_lt.mp h)
      · exact (ih b).2 t ht

lemma argminFin_le (f : Fin 1000 → ℚ) (t : Fin 1000) : f (argminFin f) ≤ f t :=
  (foldl_min_le f (List.finRange 1000) 0).2 t (List.mem_finRange t)

lemma argminFin_eq_start (f : Fin 1000 → ℚ) (h : ∀ t, f 0 ≤ f t) :
    argminFin f = 0 := by
  have hgen : ∀ (l : List (Fin 1000)) (b : Fin 1000), (∀ t, f b ≤ f t) →
      l.foldl (fun best t => if f t < f best then t else best) b = b := by
    intro l
    induction l with
    | nil =>
      intro b _
      rfl
    | cons a l ih =>
      intro b hb
      simp only [List.foldl_cons]
      rw [if_neg (not_lt.mpr (hb a))]
      exact ih b hb
  exact hgen _ 0 h

/-- The minimum sampled squared distance, `np.min(d)` (attained at
`argminFin`). -/
def dMin (f : Fin 1000 → ℚ) : ℚ := f (argminFin f)

/-- All indices attaining the minimum — `np.where(d == np.min(d))`. -/
def minIndices (f : Fin 1000 → ℚ) : Finset (Fin 1000) :=
  Finset.univ.filter fun t => f t = dMin f

/-- `np.round`: round half to even. -/
def roundHalfEven (q : ℚ) : ℤ :=
  if q - ⌊q⌋ < 1/2 then ⌊q⌋
  else if 1/2 < q - ⌊q⌋ then ⌊q⌋ + 1
  else if Even ⌊q⌋ then ⌊q⌋ else ⌊q⌋ + 1

lemma roundHalfEven_mem (q : ℚ) (h1 : 1 ≤ q) (h2 : q ≤ 50) :
    1 ≤ roundHalfEven q ∧ roundHalfEven q ≤ 50 := by
  have hfl : (⌊q⌋ : ℚ) ≤ q := Int.floor_le q
  have hf1 : (1 : ℤ) ≤ ⌊q⌋ := Int.le_floor.mpr (by exact_mod_cast h1)
  have hf50 : ⌊q⌋ ≤ 50 := by
    have h : (⌊q⌋ : ℚ) ≤ ((50 : ℤ) : ℚ) := by
      push_cast
      linarith
    exact_mod_cast h
  have h49 : ¬ (q - ⌊q⌋ < 1/2) → ⌊q⌋ ≤ 49 := by
    intro ha
    push_neg at ha
    by_contra hlt
    push_neg at hlt
    have h50 : (50 : ℚ) ≤ (⌊q⌋ : ℚ) := by exact_mod_cast hlt
    linarith
  rw [roundHalfEven]
  split_ifs with ha hb hc
  · exact ⟨hf1, hf50⟩
  · have := h49 ha
    omega
  · exact ⟨hf1, hf50⟩
  · have := h49 ha
    omega

lemma linspace_mem (t : Fin 1000) : 1 ≤ linspace1to50 t ∧ linspace1to50 t ≤ 50 := by
  constructor
  · have h : (0 : ℚ) ≤ 49 * ((t : ℕ) : ℚ) / 999 := by positivity
    rw [linspace1to50]
    linarith
  · have ht : ((t : ℕ) : ℚ) ≤ 999 := by
      exact_mod_cast Nat.le_of_lt_succ t.isLt
    rw [linspace1to50]
    have h : 49 * ((t : ℕ) : ℚ) / 999 ≤ 49 := by
      rw [div_le_iff₀ (by norm_num : (0 : ℚ) < 999)]
      nlinarith
    linarith

lemma linspace_gt_one (t : Fin 1000) (ht : t ≠ 0) : 1 < linspace1to50 t := by
  have h1 : 1 ≤ (t : ℕ) := by
    rcases Nat.eq_zero_or_pos (t : ℕ) with h | h
    · exact absurd (Fin.ext (by simp [h])) ht
    · exact h
  have h2 : (1 : ℚ) ≤ ((t : ℕ) : ℚ) := by exact_mod_cast h1
  have h3 : (0 : ℚ) < 49 * ((t : ℕ) : ℚ) / 999 := by positivity
  rw [linspace1to50]
  linarith

lemma linspace_lt_fifty (t : Fin 1000) (ht : (t : ℕ) ≠ 999) :
    linspace1to50 t < 50 := by
  have h1 : (t : ℕ) ≤ 998 := by
    have := t.isLt
    omega
  have h2 : ((t : ℕ) : ℚ) ≤ 998 := by exact_mod_cast h1
  have h3 : 49 * ((t : ℕ) : ℚ) / 999 < 49 := by
    rw [div_lt_iff₀ (by norm_num : (0 : ℚ) < 999)]
    nlinarith
  rw [linspace1to50]
  linarith

/-- The ways `fit_power` can fail: the curve fit itself raised (the
error value propagates unchanged), or — after a successful fit — several
samples tie for the minimal distance, so `x0 = x[np.squeeze(i0)]` is a
multi-element array and `np.int(np.round(x0))` raises `TypeError`. -/
inductive FitError (ε : Type) where
  | fitFail : ε → FitError ε
  | tieFail : FitError ε

/-- The embedded `fit_power`: truncate to the first 50 eigenvalues, fit
the power law (oracle `cfit`, which can fail), sample the fitted curve on
`linspace(1, 50, 1000)`, collect the indices closest to the origin
(`np.where(d == np.min(d))`); when that index is unique (it is then
`argminFin`), return its x-coordinate rounded to the nearest integer,
otherwise fail the way `np.int` does on a multi-element array. -/
def fit_power {ε : Type} (rpow : ℚ → ℚ → ℚ) (cfit : List ℚ → Except ε (ℚ × ℚ))
    (eigvals_rot : List ℚ) : Except (FitError ε) ℤ :=
  match cfit (eigvals_rot.take 50) with
  | Except.error e => Except.error (FitError.fitFail e)
  | Except.ok popt =>
      if (minIndices (distsq rpow popt.1 popt.2)).card = 1 then
        Except.ok (roundHalfEven (linspace1to50 (argminFin (distsq rpow popt.1 popt.2))))
      else Except.error FitError.tieFail

/-- C4: whenever the curve fit succeeds and the sampled distance has a
unique minimizer ("the" elbow sample of the claim), `fit_power` returns
the rounded x-coordinate of that sample — one of the 1000 samples of
`x ∈ [1, 50]` — and that integer lies in `[1, 50]`.  (With a tie the
source raises `TypeError` and returns nothing, so no out-of-range
integer is ever returned.) -/
theorem C4_fit_power_range {ε : Type} (rpow : ℚ → ℚ → ℚ)
    (cfit : List ℚ → Except ε (ℚ × ℚ)) (L : List ℚ) (amp expo : ℚ)
    (hok : cfit (L.take 50) = Except.ok (amp, expo))
    (huniq : (minIndices (distsq rpow amp expo)).card = 1) :
    ∃ i0 : Fin 1000,
      (∀ t, distsq rpow amp expo i0 ≤ distsq rpow amp expo t) ∧
      fit_power rpow cfit L = Except.ok (roundHalfEven (linspace1to50 i0)) ∧
      1 ≤ roundHalfEven (linspace1to50 i0) ∧
      roundHalfEven (linspace1to50 i0) ≤ 50 := by
  refine ⟨argminFin (distsq rpow amp expo), argminFin_le _, ?_, ?_, ?_⟩
  · simp [fit_power, hok, huniq]
  · exact (roundHalfEven_mem _ (linspace_mem _).1 (linspace_mem _).2).1
  · exact (roundHalfEven_mem _ (linspace_mem _).1 (linspace_mem _).2).2

/-- Power oracle for witnesses. -/
def wRpow : ℚ → ℚ → ℚ := fun x _ => x

/-- Always-succeeding curve-fit oracle for witnesses. -/
def wCfit : List ℚ → Except Unit (ℚ × ℚ) := fun _ => Except.ok (1, 1)

lemma wRpow_distsq (t : Fin 1000) :
    distsq wRpow 1 1 t = 2 * linspace1to50 t ^ 2 := by
  rw [distsq, powerfunc, wRpow]
  ring

lemma wRpow_distsq_zero : distsq wRpow 1 1 0 = 2 := by
  rw [wRpow_distsq, linspace1to50]
  norm_num

lemma wRpow_unique_min : (minIndices (distsq wRpow 1 1)).card = 1 := by
  have hgt : ∀ t : Fin 1000, t ≠ 0 → 2 < distsq wRpow 1 1 t := by
    intro t ht
    rw [wRpow_distsq]
    have h1 := linspace_gt_one t ht
    nlinarith
  have hge : ∀ t, distsq wRpow 1 1 0 ≤ distsq wRpow 1 1 t := by
    intro t
    by_cases ht : t = 0
    · subst ht
      exact le_refl _
    · rw [wRpow_distsq_zero]
      exact le_of_lt (hgt t ht)
  have harg : argminFin (distsq wRpow 1 1) = 0 := argminFin_eq_start _ hge
  have hmi : minIndices (distsq wRpow 1 1) = {0} := by
    ext t
    simp only [minIndices, Finset.mem_filter, Finset.mem_univ, true_and,
      Finset.mem_singleton, dMin, harg, wRpow_distsq_zero]
    constructor
    · intro hteq
      by_contra ht
      exact absurd hteq (ne_of_gt (hgt t ht))
    · rintro rfl
      exact wRpow_distsq_zero
  rw [hmi]
  exact Finset.card_singleton 0

theorem C4_fit_power_range_witness :
    wCfit ([1, 2].take 50) = Except.ok (1, 1) ∧
    (minIndices (distsq wRpow 1 1)).card = 1 ∧
    ∃ i0 : Fin 1000,
      (∀ t, distsq wRpow 1 1 i0 ≤ distsq wRpow 1 1 t) ∧
      fit_power wRpow wCfit [1, 2] = Except.ok (roundHalfEven (linspace1to50 i0)) ∧
      1 ≤ roundHalfEven (linspace1to50 i0) ∧
      roundHalfEven (linspace1to50 i0) ≤ 50 :=
  ⟨rfl, wRpow_unique_min,
    C4_fit_power_range wRpow wCfit [1, 2] 1 1 rfl wRpow_unique_min⟩

lemma fit_power_take {ε : Type} (rpow : ℚ → ℚ → ℚ)
    (cfit : List ℚ → Except ε (ℚ × ℚ)) (L : List ℚ) :
    fit_power rpow cfit L = fit_power rpow cfit (L.take 50) := by
  simp only [fit_power, List.take_take, min_self]

/-- C8: the result of `fit_power` depends only on the first 50 entries of
its input: it agrees with the result on the truncated input, and any two
inputs with the same first 50 entries give the same result. -/
theorem C8_first50_only {ε : Type} (rpow : ℚ → ℚ → ℚ)
    (cfit : List ℚ → Except ε (ℚ × ℚ)) :
    (∀ L : List ℚ, 50 ≤ L.length →
      fit_power rpow cfit L = fit_power rpow cfit (L.take 50)) ∧
    (∀ L₁ L₂ : List ℚ, L₁.take 50 = L₂.take 50 →
      fit_power rpow cfit L₁ = fit_power rpow cfit L₂) := by
  constructor
  · intro L _
    exact fit_power_take rpow cfit L
  · intro L₁ L₂ h
    rw [fit_power_take rpow cfit L₁, fit_power_take rpow cfit L₂, h]

theorem C8_first50_only_witness :
    50 ≤ (List.replicate 60 (1 : ℚ)).length ∧
    fit_power wRpow wCfit (List.replicate 60 (1 : ℚ)) =
      fit_power wRpow wCfit ((List.replicate 60 (1 : ℚ)).take 50) :=
  ⟨by simp, (C8_first50_only wRpow wCfit).1 (List.replicate 60 (1 : ℚ)) (by simp)⟩

/-- Power oracle producing an exact distance tie between the first and
last sample (`1² + 418² = 50² + 415² = 174725`), with every other sample
strictly farther from the origin. -/
def tieRpow : ℚ → ℚ → ℚ := fun x _ =>
  if x = 1 then 418 else if x = 50 then 415 else 1000

/-- The last sample index. -/
def lastIdx : Fin 1000 := ⟨999, by norm_num⟩

lemma linspace_zero : linspace1to50 0 = 1 := by
  rw [linspace1to50]
  norm_num

lemma linspace_lastIdx : linspace1to50 lastIdx = 50 := by
  rw [linspace1to50, lastIdx]
  norm_num

lemma tie_distsq_zero : distsq tieRpow 1 1 0 = 174725 := by
  rw [distsq, powerfunc, linspace_zero, tieRpow]
  norm_num

lemma tie_distsq_last : distsq tieRpow 1 1 lastIdx = 174725 := by
  rw [distsq, powerfunc, linspace_lastIdx, tieRpow]
  norm_num

lemma tie_distsq_mid (t : Fin 1000) (h0 : t ≠ 0) (h999 : t ≠ lastIdx) :
    distsq tieRpow 1 1 t = linspace1to50 t ^ 2 + 1000 ^ 2 := by
  have hx1 : linspace1to50 t ≠ 1 := ne_of_gt (linspace_gt_one t h0)
  have hx50 : linspace1to50 t ≠ 50 := by
    refine ne_of_lt (linspace_lt_fifty t ?_)
    intro hv
    exact h999 (Fin.ext (by rw [hv, lastIdx]))
  rw [distsq, powerfunc, tieRpow]
  rw [if_neg hx1, if_neg hx50]
  ring

lemma tie_min_at_zero : ∀ t, distsq tieRpow 1 1 0 ≤ distsq tieRpow 1 1 t := by
  intro t
  by_cases h0 : t = 0
  · subst h0
    exact le_refl _
  by_cases h999 : t = lastIdx
  · subst h999
    rw [tie_distsq_zero, tie_distsq_last]
  · rw [tie_distsq_zero, tie_distsq_mid t h0 h999]
    have h1 := (linspace_mem t).1
    nlinarith

lemma tie_not_unique : (minIndices (distsq tieRpow 1 1)).card ≠ 1 := by
  have harg : argminFin (distsq tieRpow 1 1) = 0 :=
    argminFin_eq_start _ tie_min_at_zero
  have hm0 : (0 : Fin 1000) ∈ minIndices (distsq tieRpow 1 1) := by
    simp [minIndices, dMin, harg]
  have hm999 : lastIdx ∈ minIndices (distsq tieRpow 1 1) := by
    simp [minIndices, dMin, harg, tie_distsq_zero, tie_distsq_last]
  have hne : (0 : Fin 1000) ≠ lastIdx := by
    intro h
    have := congrArg Fin.val h
    rw [lastIdx] at this
    simp at this
  have hlt : 1 < (minIndices (distsq tieRpow 1 1)).card :=
    Finset.one_lt_card.mpr ⟨0, hm0, lastIdx, hm999, hne⟩
  omega

/-- C9 counterexample: the curve fit succeeds (it returns `(1, 1)`), yet
the call fails — the first and last samples tie for the minimal distance,
so `np.int(np.round(x0))` is applied to a two-element array and raises
`TypeError`.  This refutes "fails if and only if the curve fit fails". -/
theorem C9_error_propagation_cex :
    wCfit ([1, 2].take 50) = Except.ok (1, 1) ∧
    fit_power tieRpow wCfit [1, 2] = Except.error FitError.tieFail :=
  ⟨rfl, by simp [fit_power, wCfit, tie_not_unique]⟩

/-- C9 (amended): `fit_power` has no local error handling, no retry and
no substituted return value: a curve-fit failure propagates unchanged to
the caller; after a successful fit the call returns the rounded elbow
x-coordinate when the minimal sampled distance is attained exactly once,
and otherwise fails the way `np.int` fails on a multi-element array.  It
fails exactly when the curve fit fails or the successful fit's minimal
distance is attained by more than one sample. -/
theorem C9_error_propagation {ε : Type} (rpow : ℚ → ℚ → ℚ)
    (cfit : List ℚ → Except ε (ℚ × ℚ)) (L : List ℚ) :
    (∀ e : ε, cfit (L.take 50) = Except.error e →
      fit_power rpow cfit L = Except.error (FitError.fitFail e)) ∧
    (∀ popt : ℚ × ℚ, cfit (L.take 50) = Except.ok popt →
      ((minIndices (distsq rpow popt.1 popt.2)).card = 1 →
        fit_power rpow cfit L = Except.ok
          (roundHalfEven (linspace1to50 (argminFin (distsq rpow popt.1 popt.2))))) ∧
      ((minIndices (distsq rpow popt.1 popt.2)).card ≠ 1 →
        fit_power rpow cfit L = Except.error FitError.tieFail)) ∧
    ((∃ fe, fit_power rpow cfit L = Except.error fe) ↔
      ((∃ e, cfit (L.take 50) = Except.error e) ∨
       (∃ popt, cfit (L.take 50) = Except.ok popt ∧
         (minIndices (distsq rpow popt.1 popt.2)).card ≠ 1))) := by
  refine ⟨?_, ?_, ?_⟩
  · intro e he
    simp only [fit_power, he]
  · intro popt hp
    constructor
    · intro h1
      simp [fit_power, hp, h1]
    · intro h1
      simp [fit_power, hp, h1]
  · cases hc : cfit (L.take 50) with
    | error e =>
      constructor
      · intro _
        exact Or.inl ⟨e, rfl⟩
      · intro _
        exact ⟨FitError.fitFail e, by simp [fit_power, hc]⟩
    | ok popt =>
      by_cases hcard : (minIndices (distsq rpow popt.1 popt.2)).card = 1
      · constructor
        · rintro ⟨fe, hfe⟩
          simp [fit_power, hc, hcard] at hfe
        · rintro (⟨e, he⟩ | ⟨p, hp, hne⟩)
          · exact absurd he (by simp)
          · have hpe : popt = p := by
              cases hp
              rfl
            exact absurd hcard (hpe ▸ hne)
      · constructor
        · intro _
          exact Or.inr ⟨popt, rfl, hcard⟩
        · intro _
          exact ⟨FitError.tieFail, by simp [fit_power, hc, hcard]⟩

/-- Always-failing curve-fit oracle for the C9 witness. -/
def wCfitErr : List ℚ → Except ℕ (ℚ × ℚ) := fun _ => Except.error 7

theorem C9_error_propagation_witness :
    wCfitErr ([1, 2].take 50) = Except.error 7 ∧
    fit_power wRpow wCfitErr [1, 2] = Except.error (FitError.fitFail 7) :=
  ⟨rfl, (C9_error_propagation wRpow wCfitErr [1, 2]).1 7 rfl⟩

end Parcellotron
